import Mathlib

/-!
Verification of the markdown block-patching core (parser.rs, patch.rs).

The document text is modelled as a list of characters (`Str`); offsets count
characters, which agrees with the source's byte offsets on single-byte text.
Whitespace is the ASCII whitespace set (the source's Unicode classes restricted
to ASCII).  The external regex engine used for fingerprints is abstracted as a
caller-supplied match function; the fixed regular-expression literals of the
source (heading, list marker, thematic break, newline-run) are modelled
concretely.  Recursions that are not structural in the source's loop variable
carry explicit fuel, always invoked with a bound that provably suffices.
-/

set_option maxHeartbeats 1000000

abbrev Str := List Char

/-- ASCII whitespace, modelling the whitespace class used by trim and \s. -/
def isWsB (c : Char) : Bool :=
  c == ' ' || c == '\t' || c == '\n' || c == '\r' || c == '\x0b' || c == '\x0c'

/-- Models str::trim: drop whitespace from both ends. -/
def trimStr (s : Str) : Str :=
  ((s.dropWhile isWsB).reverse.dropWhile isWsB).reverse

/-- Models str::starts_with(char). -/
def startsC (c : Char) : Str → Bool
  | [] => false
  | x :: _ => x == c

/-- Models str::starts_with(&str). -/
def startsS (p s : Str) : Bool := List.isPrefixOf p s

/-- The backtick character (source writes it as a literal in string form). -/
def btick : Char := Char.ofNat 96

/-- The code-fence marker, three backticks. -/
def fence3 : Str := [btick, btick, btick]

/-- Split on newline characters, keeping a (possibly empty) final piece. -/
def splitNl : Str → List Str
  | [] => [[]]
  | c :: rest =>
    if c = '\n' then [] :: splitNl rest
    else
      match splitNl rest with
      | [] => [[c]]
      | l :: ls => (c :: l) :: ls

/-- Models str::lines() for text free of carriage returns: split on newlines,
dropping the final empty piece produced by a trailing newline. -/
def rustLines (t : Str) : List Str :=
  if t = [] then []
  else if t.getLast? = some '\n' then (splitNl t).dropLast
  else splitNl t

/-- Join lines with a single newline separator (no trailing newline). -/
def joinNl : List Str → Str
  | [] => []
  | [l] => l
  | l :: ls => l ++ '\n' :: joinNl ls

/-- Sum of line lengths counting one newline per line, as accumulated by the
section-building loop. -/
def sumLens (ls : List Str) : Nat := (ls.map (fun l => l.length + 1)).sum

/-- The trailing newline of the text, if any: what str::lines() forgets. -/
def nlTail (t : Str) : Str := if t.getLast? = some '\n' then ['\n'] else []

theorem splitNl_ne_nil (t : Str) : splitNl t ≠ [] := by
  cases t with
  | nil => simp [splitNl]
  | cons c rest =>
    simp only [splitNl]
    split
    · simp
    · cases h : splitNl rest <;> simp

theorem joinNl_cons_cons (a b : Str) (t : List Str) :
    joinNl (a :: b :: t) = a ++ '\n' :: joinNl (b :: t) := rfl

theorem joinNl_cons_ne (a : Str) (S : List Str) (h : S ≠ []) :
    joinNl (a :: S) = a ++ '\n' :: joinNl S := by
  cases S with
  | nil => exact absurd rfl h
  | cons b t => rfl

theorem joinNl_splitNl (t : Str) : joinNl (splitNl t) = t := by
  induction t with
  | nil => simp [splitNl, joinNl]
  | cons c rest ih =>
    simp only [splitNl]
    by_cases hc : c = '\n'
    · simp only [if_pos hc]
      rw [joinNl_cons_ne [] (splitNl rest) (splitNl_ne_nil rest)]
      simp [ih, hc]
    · simp only [if_neg hc]
      cases h : splitNl rest with
      | nil => exact absurd h (splitNl_ne_nil rest)
      | cons l ls =>
        cases ls with
        | nil =>
          simp only [joinNl]
          rw [h] at ih
          simp only [joinNl] at ih
          simp [ih]
        | cons l2 ls2 =>
          rw [joinNl_cons_ne (c :: l) (l2 :: ls2) (by simp)]
          rw [h] at ih
          rw [joinNl_cons_ne l (l2 :: ls2) (by simp)] at ih
          simp [← ih]

theorem splitNl_cons (c : Char) (rest : Str) :
    splitNl (c :: rest) =
      if c = '\n' then [] :: splitNl rest
      else
        match splitNl rest with
        | [] => [[c]]
        | l :: ls => (c :: l) :: ls := rfl

theorem splitNl_last_nil (t : Str) (hne : t ≠ []) (hlast : t.getLast? = some '\n') :
    ∃ L, splitNl t = L ++ [[]] := by
  induction t with
  | nil => exact absurd rfl hne
  | cons c rest ih =>
    cases rest with
    | nil =>
      simp only [List.getLast?_singleton, Option.some.injEq] at hlast
      refine ⟨[[]], ?_⟩
      simp [splitNl, hlast]
    | cons d rest2 =>
      have hlast' : (d :: rest2).getLast? = some '\n' := by
        rw [List.getLast?_cons_cons] at hlast
        exact hlast
      obtain ⟨L', hL'⟩ := ih (by simp) hlast'
      rw [splitNl_cons, hL']
      by_cases hc : c = '\n'
      · exact ⟨[] :: L', by simp [hc]⟩
      · simp only [if_neg hc]
        cases L' with
        | nil =>
          exfalso
          have := joinNl_splitNl (d :: rest2)
          rw [hL'] at this
          simp only [List.nil_append, joinNl] at this
          simp [← this] at hlast'
        | cons l0 L'' => exact ⟨(c :: l0) :: L'', by simp⟩

theorem joinNl_append_singleton (L : List Str) (x : Str) (hL : L ≠ []) :
    joinNl (L ++ [x]) = joinNl L ++ '\n' :: x := by
  induction L with
  | nil => exact absurd rfl hL
  | cons a L' ih =>
    cases L' with
    | nil => simp [joinNl]
    | cons b L'' =>
      rw [List.cons_append, joinNl_cons_ne a (b :: L'' ++ [x]) (by simp),
        joinNl_cons_ne a (b :: L'') (by simp), ih (by simp)]
      simp

/-- The parsed text is the parsed line sequence rejoined with newlines, plus the
trailing newline that str::lines() drops. -/
theorem text_eq_joinNl (t : Str) : t = joinNl (rustLines t) ++ nlTail t := by
  by_cases hne : t = []
  · simp [hne, rustLines, nlTail, joinNl]
  · by_cases hlast : t.getLast? = some '\n'
    · obtain ⟨L, hL⟩ := splitNl_last_nil t hne hlast
      have hLne : L ≠ [] := by
        intro h
        have := joinNl_splitNl t
        rw [hL, h] at this
        simp only [List.nil_append, joinNl] at this
        exact hne this.symm
      have hjoin := joinNl_splitNl t
      rw [hL, joinNl_append_singleton L [] hLne] at hjoin
      simp only [rustLines, if_neg hne, if_pos hlast, nlTail, hL]
      rw [List.dropLast_concat]
      simpa using hjoin.symm
    · simp only [rustLines, if_neg hne, if_neg hlast, nlTail]
      simp [joinNl_splitNl t]

/-- BlockType from parser.rs. -/
inductive BlockType where
  | paragraph
  | heading (level : Nat)
  | codeBlock (lang : Option Str)
  | list (ordered : Bool)
  | blockQuote
  | table
  | html
  | thematicBreak
deriving DecidableEq, Repr

/-- Block from parser.rs; the source's `end` field (a Lean keyword) is `stop`. -/
structure Block where
  start : Nat
  stop : Nat
  content : Str
  block_type : BlockType
deriving DecidableEq, Repr

/-- Section from parser.rs. -/
structure Section where
  heading : Str
  heading_level : Nat
  heading_start : Nat
  heading_end : Nat
  blocks : List Block
deriving DecidableEq, Repr

/-- Models str::contains(&str): substring search. -/
def containsSub (n : Str) : Str → Bool
  | [] => List.isPrefixOf n []
  | c :: rest => List.isPrefixOf n (c :: rest) || containsSub n rest

/-- A blank line: its trim is empty. -/
def blankL (l : Str) : Bool := (trimStr l).isEmpty

/-- The list-item regex ^([-*+]|\d+\.)\s of the source: a dash/star/plus or a
digit run followed by a dot, then one whitespace character. -/
def listRe (s : Str) : Bool :=
  (match s with
   | c :: d :: _ => (c == '-' || c == '*' || c == '+') && isWsB d
   | _ => false) ||
  (let ds := s.takeWhile (fun c => c.isDigit)
   !ds.isEmpty &&
   (match s.drop ds.length with
    | c :: w :: _ => c == '.' && isWsB w
    | _ => false))

/-- The thematic-break regex ^([-*_]){3,}\s*$ of the source: at least three
characters from the class, then only whitespace. -/
def thematicRe (s : Str) : Bool :=
  let u := s.takeWhile (fun c => c == '-' || c == '*' || c == '_')
  decide (3 ≤ u.length) && (s.drop u.length).all isWsB

/-- One consumption step of the block loops: push a newline separator (unless
the content is still empty) and the line, advancing the offset in lockstep. -/
def accStep (l : Str) (c : Str) (off : Nat) : Str × Nat :=
  if c = [] then (l, off + l.length) else (c ++ '\n' :: l, off + 1 + l.length)

/-- The common shape of the table/quote/list/html/paragraph loops of parser.rs:
`f` is the pre-consumption break test (returning the updated parser state) and
`post` the post-consumption break test (used only by the table loop). -/
def accLoop {σ : Type} (f : σ → Str → Option σ) (post : Str → Bool) :
    List Str → σ → Str → Nat → Nat → Str × Nat × Nat
  | [], _, c, off, e => (c, off, e)
  | l :: rest, st, c, off, e =>
    match f st l with
    | none => (c, off, e)
    | some st' =>
      let p := accStep l c off
      if post l then (p.1, p.2, e + 1) else accLoop f post rest st' p.1 p.2 (e + 1)

/-- Break test of the table loop: stop at a non-blank line without a pipe. -/
def fTable : Unit → Str → Option Unit := fun _ l =>
  if !(l.contains '|') && !(blankL l) then none else some ()

/-- Break test of the block-quote loop (on the untrimmed line). -/
def fQuote : Unit → Str → Option Unit := fun _ l =>
  if !(startsC '>' l) && !(blankL l) then none else some ()

/-- Continuation test of the list loop: a list item (trimmed), an indented
line, or a blank line. -/
def fList : Unit → Str → Option Unit := fun _ l =>
  let isItem := listRe (trimStr l)
  let isIndented := startsS [' ', ' '] l || startsS ['\t'] l || blankL l
  if !isItem && !isIndented && !(blankL l) then none else some ()

/-- Break/state test of the HTML loop: stop at a blank line once the naive tag
counter is back to zero; the counter may go negative, hence Int. -/
def fHtml : Int → Str → Option Int := fun st l =>
  if blankL l && (st == 0) then none
  else
    some (st
      + (if l.contains '<' && !(containsSub ['<', '/'] l) then 1 else 0)
      - (if containsSub ['<', '/'] l then 1 else 0))

/-- Break test of the paragraph loop (on the untrimmed line, as in the
source): a blank line or a line that starts another block kind. -/
def fPara : Unit → Str → Option Unit := fun _ l =>
  if blankL l || startsS fence3 l || startsC '#' l || startsC '>' l
      || listRe l || thematicRe l
  then none else some ()

def parse_table (lines : List Str) (start off : Nat) : Option (Block × Nat) :=
  let r := accLoop fTable blankL (lines.drop start) () [] off start
  some (⟨off, r.2.1, r.1, .table⟩, r.2.2)

def parse_block_quote (lines : List Str) (start off : Nat) : Option (Block × Nat) :=
  let r := accLoop fQuote (fun _ => false) (lines.drop start) () [] off start
  some (⟨off, r.2.1, r.1, .blockQuote⟩, r.2.2)

def parse_list (lines : List Str) (start off : Nat) : Option (Block × Nat) :=
  let first := lines.getD start []
  let ordered := match trimStr first with
    | c :: _ => c.isDigit
    | [] => false
  let r := accLoop fList (fun _ => false) (lines.drop start) () [] off start
  some (⟨off, r.2.1, r.1, .list ordered⟩, r.2.2)

def parse_html_block (lines : List Str) (start off : Nat) : Option (Block × Nat) :=
  let r := accLoop fHtml (fun _ => false) (lines.drop start) (0 : Int) [] off start
  some (⟨off, r.2.1, r.1, .html⟩, r.2.2)

def parse_paragraph (lines : List Str) (start off : Nat) : Option (Block × Nat) :=
  let r := accLoop fPara (fun _ => false) (lines.drop start) () [] off start
  if r.1.isEmpty then none
  else some (⟨off, r.2.1, r.1, .paragraph⟩, r.2.2)

/-- The fenced-code loop of parser.rs: the content always takes a newline and
the line; a closing fence adds its length (without the +1 for a newline) and
stops with the line index unadvanced; the caller returns that index plus one. -/
def codeLoop : List Str → Str → Nat → Nat → Str × Nat × Nat
  | [], c, off, e => (c, off, e)
  | l :: rest, c, off, e =>
    let c2 := c ++ '\n' :: l
    if trimStr l = fence3 then (c2, off + l.length, e)
    else codeLoop rest c2 (off + l.length + 1) (e + 1)

def parse_code_block (lines : List Str) (start off : Nat) : Option (Block × Nat) :=
  let first := lines.getD start []
  let langS := trimStr (first.dropWhile (fun c => c == btick))
  let lang := if langS.isEmpty then none else some langS
  let r := codeLoop (lines.drop (start + 1)) first (off + first.length + 1) (start + 1)
  some (⟨off, r.2.1, r.1, .codeBlock lang⟩, r.2.2 + 1)

/-- The block classifier dispatch of parser.rs: each test is made on the
trimmed line, first match wins. -/
def parse_block (lines : List Str) (start off : Nat) : Option (Block × Nat) :=
  if start < lines.length then
    let l0 := lines.getD start []
    let t := trimStr l0
    if t.isEmpty then none
    else if startsS fence3 t then parse_code_block lines start off
    else if t.contains '|' then parse_table lines start off
    else if startsC '>' t then parse_block_quote lines start off
    else if listRe t then parse_list lines start off
    else if startsC '<' t && !(startsS ['<', '!', '-', '-'] t) then
      parse_html_block lines start off
    else if thematicRe t then
      some (⟨off, off + l0.length, l0, .thematicBreak⟩, start + 1)
    else parse_paragraph lines start off
  else none

/-- The heading regex ^(#{1,6})\s+(.+)$ of parser.rs, with its backtracking:
one to six hashes, at least one whitespace character, then a non-empty rest
(when everything after the hashes is whitespace, the greedy \s+ gives back its
last character to the (.+) group).  Returns the level and the heading text
rebuilt as hashes, a single space, and the rest, as the source does. -/
def headingParse (line : Str) : Option (Nat × Str) :=
  let hashes := line.takeWhile (fun c => c == '#')
  if 1 ≤ hashes.length ∧ hashes.length ≤ 6 then
    let t := line.drop hashes.length
    let ws := t.takeWhile isWsB
    let rest := t.dropWhile isWsB
    if ws.isEmpty then none
    else if !rest.isEmpty then some (hashes.length, hashes ++ ' ' :: rest)
    else if 2 ≤ ws.length then
      some (hashes.length, hashes ++ ' ' :: [ws.getLastD ' '])
    else none
  else none

/-- Outcome of the parsing pass.  `panic` models an index-out-of-bounds abort
of the source; `diverge` models the source re-entering its loop with an
unchanged index (an infinite loop); `fuelOut` is exhaustion of the model's
fuel, never reached by `parse_sections`. -/
inductive ParseOutcome where
  | ok (sections : List Section)
  | panic
  | diverge
  | fuelOut
deriving DecidableEq, Repr

/-- Close the currently open section, if any. -/
def flushSec : Option Section → List Section → List Section
  | some s, acc => acc ++ [s]
  | none, acc => acc

/-- The main loop of parse_sections (parser.rs): a heading line closes the
open section and opens a new one; other lines inside a section go through the
block classifier, and the offset advances by line length plus one per consumed
line.  The source adjusts offsets with `lines[i + j]` for j below
`next_i - i`; when the classifier reports a next index beyond the line count
this indexes past the end (panic), and when it reports an unchanged index the
source loops forever (diverge). -/
def parseLoop (lines : List Str) :
    Nat → Nat → Nat → Option Section → List Section → ParseOutcome
  | 0, _, _, _, _ => .fuelOut
  | fuel + 1, i, off, cur, acc =>
    if i < lines.length then
      let line := lines.getD i []
      match headingParse line with
      | some (level, htext) =>
        parseLoop lines fuel (i + 1) (off + line.length + 1)
          (some ⟨htext, level, off, off + line.length, []⟩) (flushSec cur acc)
      | none =>
        match cur with
        | some sec =>
          match parse_block lines i off with
          | some (b, n) =>
            if n ≤ lines.length then
              if i < n then
                parseLoop lines fuel n (off + sumLens ((lines.drop i).take (n - i)))
                  (some ⟨sec.heading, sec.heading_level, sec.heading_start,
                    sec.heading_end, sec.blocks ++ [b]⟩) acc
              else .diverge
            else .panic
          | none => parseLoop lines fuel (i + 1) (off + line.length + 1) cur acc
        | none => parseLoop lines fuel (i + 1) (off + line.length + 1) cur acc
    else .ok (flushSec cur acc)

/-- parse_sections of parser.rs. -/
def parse_sections (t : Str) : ParseOutcome :=
  let lines := rustLines t
  parseLoop lines (lines.length + 1) 0 0 none []

/-- The error taxonomy of the core (anyhow messages in the source, modelled as
tags; `panicked`/`diverged`/`fuelExhausted` mirror `ParseOutcome`). -/
inductive PatchError where
  | emptyHeadingPath
  | headingNotFound
  | ambiguousHeading
  | subheadingNotFound
  | blockIndexOutOfRange (index available : Nat)
  | fingerprintMismatch
  | unsafeDestructiveOperation
  | missingContent
  | panicked
  | diverged
  | fuelExhausted
deriving DecidableEq, Repr

deriving instance DecidableEq for Except

/-- Leading-hash count of a heading string, as an u8 in the source. -/
def hashLevel (s : Str) : Nat := (s.takeWhile (fun c => c == '#')).length % 256

/-- The forward scan of find_section for one subsequent path element: walk the
enumerated sections after the current index; a section whose level is at most
the top-level anchor's level ends the scope. -/
def scanFrom (first_level : Nat) (target : Str) :
    List (Nat × Section) → Option (Nat × Section)
  | [] => none
  | (j, s) :: rest =>
    if hashLevel s.heading ≤ first_level then none
    else if trimStr s.heading = target then some (j, s)
    else scanFrom first_level target rest

/-- The loop of find_section over the path elements after the first. -/
def subLoop (sections : List Section) (first_level : Nat) :
    Section → Nat → List Str → Except PatchError Section
  | cur, _, [] => .ok cur
  | cur, idx, tgt0 :: rest =>
    let target := trimStr tgt0
    match scanFrom first_level target (sections.enum.drop (idx + 1)) with
    | some (j, s) => subLoop sections first_level s j rest
    | none => .error .subheadingNotFound

/-- find_section of parser.rs.  Note: the `candidates.len() > 1` ambiguity
check of the source is made only when the path has exactly one element; for a
longer path the source proceeds from `candidates[0]`. -/
def find_section (sections : List Section) (heading_path : List Str) :
    Except PatchError Section :=
  match heading_path with
  | [] => .error .emptyHeadingPath
  | first0 :: restPath =>
    let first := trimStr first0
    let first_level := hashLevel first
    match sections.filter (fun s => trimStr s.heading = first) with
    | [] => .error .headingNotFound
    | c0 :: crest =>
      if restPath.isEmpty then
        if !crest.isEmpty then .error .ambiguousHeading else .ok c0
      else
        let idx0 := sections.findIdx (fun s => s.heading = c0.heading)
        subLoop sections first_level c0 idx0 restPath

/-- get_block of parser.rs. -/
def get_block (s : Section) (index : Nat) : Except PatchError Block :=
  if h : index < s.blocks.length then .ok (s.blocks.get ⟨index, h⟩)
  else .error (.blockIndexOutOfRange index s.blocks.length)

/-- Operation from patch.rs. -/
inductive Operation where
  | append
  | replace
  | delete
deriving DecidableEq, Repr

/-- PatchOperation from patch.rs (the file path is kept as text). -/
structure PatchOperation where
  file : Str
  heading_path : List Str
  block_index : Nat
  operation : Operation
  content : Option Str
  fingerprint : Option Str
deriving DecidableEq, Repr

/-- PatchResult from patch.rs.  The new_content/diff field names follow the
source; `is_noop` is absent here exactly as in the source's definition. -/
inductive PatchResult where
  | applied (new_content : Str) (diff : Str)
  | dryRun (diff : Str)
deriving DecidableEq, Repr

/-- Modelled from the spec: the `is_noop` flag of a MutationResult.  The
source's patch.rs defines PatchResult without this field although main.rs
destructures one; per §3 of the spec, is_noop is true exactly when the
requested change was already present, i.e. when the mutation returned the
original text unchanged. -/
def is_noop (original new_text : Str) : Bool := original == new_text

/-- apply_append of patch.rs: if the content already occurs anywhere from the
block's start onward the original text is returned unchanged; otherwise the
content framed by newlines is inserted after the block's end offset. -/
def apply_append (content : Str) (block : Block) (new_content : Option Str) :
    Except PatchError Str :=
  match new_content with
  | none => .error .missingContent
  | some c =>
    if containsSub c (content.drop block.start) then .ok content
    else .ok (content.take block.stop ++ '\n' :: c ++ '\n' :: content.drop block.stop)

/-- apply_replace of patch.rs: splice the content into the block's range. -/
def apply_replace (content : Str) (block : Block) (new_content : Option Str) :
    Except PatchError Str :=
  match new_content with
  | none => .error .missingContent
  | some c => .ok (content.take block.start ++ c ++ content.drop block.stop)

/-- The \n{3,} → "\n\n" replace_all of apply_delete, as a single scan: `pending`
counts newlines seen but not yet emitted; a maximal run of three or more is
emitted as exactly two. -/
def collapseAux : Str → Nat → Str
  | [], pending => List.replicate (min pending 2) '\n'
  | c :: rest, pending =>
    if c = '\n' then collapseAux rest (pending + 1)
    else List.replicate (min pending 2) '\n' ++ c :: collapseAux rest 0

def collapseNl (s : Str) : Str := collapseAux s 0

/-- apply_delete of patch.rs: remove the block's range, then collapse runs of
three or more newlines to two. -/
def apply_delete (content : Str) (block : Block) : Except PatchError Str :=
  .ok (collapseNl (content.take block.start ++ content.drop block.stop))

/-- The LCS-length recurrence of the dynamic-programming table of compute_lcs
(patch.rs), on reversed line prefixes; fuel-driven, with zero on exhaustion
(the wrapper below always supplies enough). -/
def lcsLenF : Nat → List Str → List Str → Nat
  | 0, _, _ => 0
  | fuel + 1, a, b =>
    match a, b with
    | [], _ => 0
    | _, [] => 0
    | x :: xs, y :: ys =>
      if x = y then lcsLenF fuel xs ys + 1
      else max (lcsLenF fuel xs (y :: ys)) (lcsLenF fuel (x :: xs) ys)

def lcsLen (a b : List Str) : Nat := lcsLenF (a.length + b.length + 1) a b

/-- The backtracking walk of compute_lcs over the table, phrased on reversed
lists: equal heads go on the diagonal, otherwise the larger table entry wins,
ties toward dropping from the second sequence (the source's else branch). -/
def lcsGo : Nat → List Str → List Str → List Str
  | 0, _, _ => []
  | fuel + 1, a, b =>
    match a, b with
    | [], _ => []
    | _, [] => []
    | x :: xs, y :: ys =>
      if x = y then x :: lcsGo fuel xs ys
      else if lcsLen xs (y :: ys) > lcsLen (x :: xs) ys then lcsGo fuel xs (y :: ys)
      else lcsGo fuel (x :: xs) ys

/-- compute_lcs of patch.rs: backtrack from the full table, then reverse. -/
def compute_lcs (a b : List Str) : List Str :=
  (lcsGo (a.length + b.length + 1) a.reverse b.reverse).reverse

/-- The emit loop of generate_diff (patch.rs).  With common lines remaining:
an unchanged line needs both heads equal to the next common line; otherwise an
original head differing from the common line is a deletion; otherwise the
source emits `modified_lines[j]`, which panics (none) when the modified side
is exhausted.  With no common lines remaining, the source drains the original
as deletions and then the modified as additions. -/
def diffWalk : Nat → List Str → List Str → List Str → Option (List Str)
  | 0, _, _, _ => none
  | fuel + 1, a, b, lcs =>
    match lcs with
    | [] => some (a.map (fun l => '-' :: l) ++ b.map (fun l => '+' :: l))
    | k :: ks =>
      match a with
      | [] => some (b.map (fun l => '+' :: l))
      | x :: xs =>
        if x = k then
          match b with
          | [] => none
          | y :: ys =>
            if x = y then (diffWalk fuel xs ys ks).map (fun r => (' ' :: x) :: r)
            else (diffWalk fuel (x :: xs) ys (k :: ks)).map (fun r => ('+' :: y) :: r)
        else (diffWalk fuel xs b (k :: ks)).map (fun r => ('-' :: x) :: r)

/-- The `--- a/file` / `+++ b/file` header of generate_diff. -/
def diffHeader (f : Str) : Str :=
  ('-' :: '-' :: '-' :: ' ' :: 'a' :: '/' :: f) ++
    '\n' :: ('+' :: '+' :: '+' :: ' ' :: 'b' :: '/' :: f) ++ ['\n']

/-- generate_diff of patch.rs: header, then the walked body with each line
prefixed and newline-terminated.  `none` models the walk's panic. -/
def generate_diff (original modified filename : Str) : Option Str :=
  let a := rustLines original
  let b := rustLines modified
  let lcs := compute_lcs a b
  (diffWalk (a.length + b.length + 1) a b lcs).map
    (fun body => diffHeader filename ++ body.flatMap (fun l => l ++ ['\n']))

/-- Strip every leading "./" as trim_start_matches("./") does. -/
def stripDotSlash : Str → Str
  | '.' :: '/' :: rest => stripDotSlash rest
  | s => s

/-- The display-filename cleanup of apply_operation. -/
def cleanFilename (f : Str) : Str := (stripDotSlash f).dropWhile (fun c => c == '/')

def isDestructive : Operation → Bool
  | .replace => true
  | .delete => true
  | .append => false

/-- apply_operation of patch.rs.  `rm pattern text` abstracts the external
regex engine's is_match (patterns are assumed well-formed, as the source's `?`
on Regex::new otherwise surfaces a programming error).  Parse, resolve the
section and block, check a supplied fingerprint against the block content,
refuse a destructive operation without fingerprint or force, mutate, and
render the diff; with force the mutated text is returned, otherwise a dry run. -/
def apply_operation (rm : Str → Str → Bool) (content : Str)
    (op : PatchOperation) (force : Bool) : Except PatchError PatchResult :=
  match parse_sections content with
  | .panic => .error .panicked
  | .diverge => .error .diverged
  | .fuelOut => .error .fuelExhausted
  | .ok sections =>
    match find_section sections op.heading_path with
    | .error e => .error e
    | .ok sec =>
      match get_block sec op.block_index with
      | .error e => .error e
      | .ok block =>
        let fpOk : Except PatchError Unit :=
          match op.fingerprint with
          | some fp => if rm fp block.content then .ok () else .error .fingerprintMismatch
          | none => .ok ()
        match fpOk with
        | .error e => .error e
        | .ok _ =>
          if isDestructive op.operation && op.fingerprint.isNone && !force then
            .error .unsafeDestructiveOperation
          else
            match (match op.operation with
                   | .append => apply_append content block op.content
                   | .replace => apply_replace content block op.content
                   | .delete => apply_delete content block) with
            | .error e => .error e
            | .ok new_content =>
              match generate_diff content new_content (cleanFilename op.file) with
              | none => .error .panicked
              | some diff =>
                .ok (if force then .applied new_content diff else .dryRun diff)

theorem containsSub_iff (n s : Str) : containsSub n s = true ↔ n <:+: s := by
  induction s with
  | nil =>
    simp only [containsSub, List.isPrefixOf_iff_prefix]
    constructor
    · intro h
      exact h.isInfix
    · intro h
      obtain ⟨s, u, hsu⟩ := h
      simp only [List.append_eq_nil] at hsu
      simp [hsu.1.2]
  | cons c rest ih =>
    simp only [containsSub, Bool.or_eq_true, List.isPrefixOf_iff_prefix, ih]
    exact (List.infix_cons_iff).symm

theorem not_triple_replicate (k : Nat) (hk : k ≤ 2) :
    ¬ (['\n', '\n', '\n'] <:+: List.replicate k '\n') := by
  intro h
  have := h.length_le
  simp at this
  omega

theorem noTriple_append_cons (a : Str) (c : Char) (b : Str) (hc : c ≠ '\n')
    (ha : ¬ (['\n', '\n', '\n'] <:+: a)) (hb : ¬ (['\n', '\n', '\n'] <:+: b)) :
    ¬ (['\n', '\n', '\n'] <:+: (a ++ c :: b)) := by
  induction a with
  | nil =>
    intro h
    rcases List.infix_cons_iff.mp h with hpre | hinf
    · exact hc (List.cons_prefix_cons.mp hpre).1.symm
    · exact hb hinf
  | cons x a1 ih =>
    intro h
    rcases List.infix_cons_iff.mp h with hpre | hinf
    · obtain ⟨hx, hpre2⟩ := List.cons_prefix_cons.mp hpre
      cases a1 with
      | nil => exact hc (List.cons_prefix_cons.mp hpre2).1.symm
      | cons y a2 =>
        obtain ⟨hy, hpre3⟩ := List.cons_prefix_cons.mp hpre2
        cases a2 with
        | nil => exact hc (List.cons_prefix_cons.mp hpre3).1.symm
        | cons z a3 =>
          obtain ⟨hz, _⟩ := List.cons_prefix_cons.mp hpre3
          apply ha
          exact List.IsPrefix.isInfix ⟨a3, by simp; exact ⟨hx, hy, hz⟩⟩
    · refine ih (fun h' => ha (List.infix_cons_iff.mpr (Or.inr h'))) hinf

theorem collapseAux_noTriple (s : Str) : ∀ p, ¬ (['\n', '\n', '\n'] <:+: collapseAux s p) := by
  induction s with
  | nil =>
    intro p
    exact not_triple_replicate (min p 2) (Nat.min_le_right p 2)
  | cons c rest ih =>
    intro p
    by_cases hc : c = '\n'
    · simpa [collapseAux, hc] using ih (p + 1)
    · simp only [collapseAux, if_neg hc]
      exact noTriple_append_cons _ c _ hc
        (not_triple_replicate (min p 2) (Nat.min_le_right p 2)) (ih 0)

/-- C6: for every document text and block, the text produced by the Delete
operation never contains three or more consecutive newline characters. -/
theorem c6_delete_cleanup (t : Str) (b : Block) :
    ∃ r, apply_delete t b = .ok r ∧ ¬ (['\n', '\n', '\n'] <:+: r) :=
  ⟨_, rfl, collapseAux_noTriple _ 0⟩

/-- C7: Replace produces exactly the bytes before the block's start, the new
content, and the bytes from the block's end onward; the text outside the
replaced range is byte-identical to the original. -/
theorem c7_replace_frame (t : Str) (b : Block) (c : Str)
    (h1 : b.start ≤ b.stop) (h2 : b.stop ≤ t.length) :
    apply_replace t b (some c) = .ok (t.take b.start ++ c ++ t.drop b.stop) ∧
    (t.take b.start ++ c ++ t.drop b.stop).take b.start = t.take b.start ∧
    (t.take b.start ++ c ++ t.drop b.stop).drop (b.start + c.length) = t.drop b.stop := by
  have hstart : b.start ≤ t.length := le_trans h1 h2
  have hlen : (t.take b.start).length = b.start := by
    simp [List.length_take, Nat.min_eq_left hstart]
  refine ⟨rfl, ?_, ?_⟩
  · rw [List.append_assoc, List.take_append_of_le_length (by omega)]
    simp [List.take_take]
  · have hlen2 : (t.take b.start ++ c).length = b.start + c.length := by
      simp [hlen]
    rw [← hlen2, List.drop_left]

/-- Witness for C7 at a concrete document and block. -/
theorem c7_replace_frame_witness :
    apply_replace ("abcdef".toList) ⟨2, 4, "cd".toList, .paragraph⟩ (some ("XY".toList))
      = .ok (("abcdef".toList).take 2 ++ "XY".toList ++ ("abcdef".toList).drop 4) ∧
    (("abcdef".toList).take 2 ++ "XY".toList ++ ("abcdef".toList).drop 4).take 2
      = ("abcdef".toList).take 2 ∧
    (("abcdef".toList).take 2 ++ "XY".toList ++ ("abcdef".toList).drop 4).drop (2 + ("XY".toList).length)
      = ("abcdef".toList).drop 4 :=
  c7_replace_frame ("abcdef".toList) ⟨2, 4, "cd".toList, .paragraph⟩ ("XY".toList)
    (by decide) (by decide)

/-- C10: Delete is not local to the deleted range: on this document the
pre-existing run of four newlines at positions 1-4, outside the deleted range
[7, 9), is collapsed to two, so the result differs from the pure splice. -/
theorem c10_delete_touches_outside :
    apply_delete ("A\n\n\n\nB\nxy".toList) ⟨7, 9, "xy".toList, .paragraph⟩
      = .ok ("A\n\nB\n".toList) ∧
    ("A\n\n\n\nB\nxy".toList).take 7 ++ ("A\n\n\n\nB\nxy".toList).drop 9
      = ("A\n\n\n\nB\n".toList) ∧
    ("A\n\nB\n".toList : Str) ≠ ("A\n\n\n\nB\n".toList) :=
  ⟨by decide, by decide, by decide⟩

/-- C1: parsing does not complete normally on every input: a fenced code block
with no closing fence makes parse_code_block report next line index
lines.len() + 1, and the offset-adjustment loop of parse_sections then indexes
lines[lines.len()], out of bounds — the source panics instead of consuming the
fence to end-of-input. -/
theorem c1_unterminated_fence_panics :
    parse_sections ("# T\n```\ncode".toList) = .panic := by decide

/-- C4: on the document "# Doc\n\n## Sec\n\nHello\n", Append(path ["## Sec"],
index 0, content "World") with force produces exactly
"# Doc\n\n## Sec\n\nHello\nWorld\n\n" (not a no-op), and re-running the
identical operation leaves the text unchanged (a no-op).  `is_noop` is the
spec-modelled flag: the source's PatchResult carries none although its caller
destructures one. -/
theorem c4_end_to_end :
    (∃ d, apply_operation (fun _ _ => false) ("# Doc\n\n## Sec\n\nHello\n".toList)
        ⟨"doc.md".toList, ["## Sec".toList], 0, .append, some ("World".toList), none⟩ true
        = .ok (.applied ("# Doc\n\n## Sec\n\nHello\nWorld\n\n".toList) d) ∧
      is_noop ("# Doc\n\n## Sec\n\nHello\n".toList)
        ("# Doc\n\n## Sec\n\nHello\nWorld\n\n".toList) = false) ∧
    (∃ d, apply_operation (fun _ _ => false) ("# Doc\n\n## Sec\n\nHello\nWorld\n\n".toList)
        ⟨"doc.md".toList, ["## Sec".toList], 0, .append, some ("World".toList), none⟩ true
        = .ok (.applied ("# Doc\n\n## Sec\n\nHello\nWorld\n\n".toList) d) ∧
      is_noop ("# Doc\n\n## Sec\n\nHello\nWorld\n\n".toList)
        ("# Doc\n\n## Sec\n\nHello\nWorld\n\n".toList) = true) :=
  ⟨⟨_, rfl, rfl⟩, ⟨_, rfl, rfl⟩⟩

/-- C2 counterexample: a document with two sections headed "# A"; the
two-element path ["# A", "## B"] has an ambiguous first element (it matches
both), yet resolution succeeds with the subsection instead of failing with the
ambiguous-heading error. -/
theorem c2_counterexample :
    ∃ secs sec, parse_sections ("# A\n## B\nx\n# A\n".toList) = .ok secs ∧
      1 < (secs.filter (fun s => trimStr s.heading = trimStr ("# A".toList))).length ∧
      find_section secs [("# A".toList), ("## B".toList)] = .ok sec ∧
      sec.heading = ("## B".toList) ∧
      find_section secs [("# A".toList), ("## B".toList)] ≠ .error .ambiguousHeading :=
  ⟨_, _, rfl, by decide, rfl, by decide, by decide⟩

theorem subLoop_ne_ambiguous (sections : List Section) (flevel : Nat) :
    ∀ (path : List Str) (cur : Section) (idx : Nat),
      subLoop sections flevel cur idx path ≠ .error .ambiguousHeading := by
  intro path
  induction path with
  | nil => intro cur idx h; simp [subLoop] at h
  | cons tgt rest ih =>
    intro cur idx
    simp only [subLoop]
    cases hscan : scanFrom flevel (trimStr tgt) (sections.enum.drop (idx + 1)) with
    | none => simp
    | some js => exact ih js.2 js.1

/-- C2 amended: the ambiguous-heading error is raised only for single-element
paths (more than one section with the requested trimmed heading); when the
path has two or more elements, resolution never reports ambiguity — it
proceeds from the first matching section. -/
theorem c2_first_level_ambiguity (sections : List Section) (path : List Str) :
    (∀ first, path = [first] →
      1 < (sections.filter (fun s => trimStr s.heading = trimStr first)).length →
      find_section sections path = .error .ambiguousHeading) ∧
    (2 ≤ path.length → find_section sections path ≠ .error .ambiguousHeading) := by
  constructor
  · intro first hpath hlen
    subst hpath
    simp only [find_section]
    cases hf : sections.filter (fun s => trimStr s.heading = trimStr first) with
    | nil => rw [hf] at hlen; simp at hlen
    | cons c0 crest =>
      cases crest with
      | nil => rw [hf] at hlen; simp at hlen
      | cons c1 crest2 => simp
  · intro hlen
    cases path with
    | nil => simp at hlen
    | cons first0 restPath =>
      cases restPath with
      | nil => simp at hlen
      | cons r1 restPath2 =>
        simp only [find_section]
        cases hf : sections.filter (fun s => trimStr s.heading = trimStr first0) with
        | nil => simp
        | cons c0 crest =>
          simp only [List.isEmpty_cons, Bool.false_eq_true, if_false]
          exact subLoop_ne_ambiguous sections (hashLevel (trimStr first0)) (r1 :: restPath2)
            c0 (sections.findIdx (fun s => s.heading = c0.heading))

/-- Witness for C2's amended statement: the single-element path over duplicated
headings fails with ambiguity; a two-element path over the same sections does
not report ambiguity. -/
theorem c2_first_level_ambiguity_witness :
    find_section [⟨"# X".toList, 1, 0, 3, []⟩, ⟨"# X".toList, 1, 10, 13, []⟩]
      [("# X".toList)] = .error .ambiguousHeading ∧
    find_section [⟨"# X".toList, 1, 0, 3, []⟩, ⟨"# X".toList, 1, 10, 13, []⟩]
      [("# X".toList), ("## Y".toList)] ≠ .error .ambiguousHeading :=
  ⟨(c2_first_level_ambiguity _ _).1 ("# X".toList) rfl (by decide),
   (c2_first_level_ambiguity _ _).2 (by decide)⟩

/-- C3 counterexample: appending content "# A" under the section "# A"
succeeds once, but re-running the identical operation fails with the
ambiguous-heading error (the inserted text is itself a duplicate heading), so
the second application is not a no-op re-application. -/
theorem c3_counterexample :
    (∃ d, apply_operation (fun _ _ => false) ("# A\n\nHello\n".toList)
        ⟨"d.md".toList, ["# A".toList], 0, .append, some ("# A".toList), none⟩ true
        = .ok (.applied ("# A\n\nHello\n# A\n\n".toList) d)) ∧
    apply_operation (fun _ _ => false) ("# A\n\nHello\n# A\n\n".toList)
        ⟨"d.md".toList, ["# A".toList], 0, .append, some ("# A".toList), none⟩ true
        = .error .ambiguousHeading :=
  ⟨⟨_, rfl⟩, rfl⟩

theorem containsSub_of_infix (n s : Str) (h : n <:+: s) : containsSub n s = true :=
  (containsSub_iff n s).mpr h

/-- C3 amended: append is idempotent at the level of a fixed resolved block:
the first application inserts the content (or leaves the text unchanged when
already present), and re-applying apply_append with the same block and content
returns the first result unchanged — a no-op. -/
theorem c3_append_idempotent (t : Str) (b : Block) (c : Str)
    (h1 : b.start ≤ b.stop) (h2 : b.stop ≤ t.length) :
    ∃ t1, apply_append t b (some c) = .ok t1 ∧
      apply_append t1 b (some c) = .ok t1 ∧ is_noop t1 t1 = true := by
  by_cases hct : containsSub c (t.drop b.start) = true
  · exact ⟨t, by simp [apply_append, hct], by simp [apply_append, hct], by simp [is_noop]⟩
  · refine ⟨t.take b.stop ++ '\n' :: c ++ '\n' :: t.drop b.stop, ?_, ?_, by simp [is_noop]⟩
    · simp [apply_append, hct]
    · have hlen : b.start ≤ (t.take b.stop).length := by
        simp [List.length_take, Nat.min_eq_left h2]
        omega
      have hlen2 : b.start ≤ (t.take b.stop ++ '\n' :: c).length := by
        simp only [List.length_append]
        omega
      have hdrop : (t.take b.stop ++ '\n' :: c ++ '\n' :: t.drop b.stop).drop b.start
          = ((t.take b.stop).drop b.start ++ '\n' :: c) ++ '\n' :: t.drop b.stop := by
        show ((t.take b.stop ++ '\n' :: c) ++ '\n' :: t.drop b.stop).drop b.start = _
        rw [List.drop_append_of_le_length hlen2, List.drop_append_of_le_length hlen]
      have hc2 : containsSub c
          ((t.take b.stop ++ '\n' :: c ++ '\n' :: t.drop b.stop).drop b.start) = true := by
        apply containsSub_of_infix
        rw [hdrop]
        exact ⟨(t.take b.stop).drop b.start ++ ['\n'], '\n' :: t.drop b.stop, by simp⟩
      simp only [apply_append]
      rw [hc2]
      simp

/-- Witness for C3's amended statement at a concrete document and block. -/
theorem c3_append_idempotent_witness :
    ∃ t1, apply_append ("ab\ncd".toList) ⟨0, 2, "ab".toList, .paragraph⟩
        (some ("xy".toList)) = .ok t1 ∧
      apply_append t1 ⟨0, 2, "ab".toList, .paragraph⟩ (some ("xy".toList)) = .ok t1 ∧
      is_noop t1 t1 = true :=
  c3_append_idempotent ("ab\ncd".toList) ⟨0, 2, "ab".toList, .paragraph⟩ ("xy".toList)
    (by decide) (by decide)

theorem lcsGo_sublist_left (fuel : Nat) :
    ∀ a b : List Str, List.Sublist (lcsGo fuel a b) a := by
  induction fuel with
  | zero => intro a b; simp [lcsGo]
  | succ f ih =>
    intro a b
    cases a with
    | nil => simp [lcsGo]
    | cons x xs =>
      cases b with
      | nil => simp [lcsGo]
      | cons y ys =>
        simp only [lcsGo]
        by_cases hxy : x = y
        · simpa [hxy] using List.Sublist.cons₂ x (ih xs ys)
        · simp only [if_neg hxy]
          by_cases hcmp : lcsLen xs (y :: ys) > lcsLen (x :: xs) ys
          · simpa [hcmp] using List.Sublist.cons x (ih xs (y :: ys))
          · simpa [hcmp] using ih (x :: xs) ys

theorem lcsGo_sublist_right (fuel : Nat) :
    ∀ a b : List Str, List.Sublist (lcsGo fuel a b) b := by
  induction fuel with
  | zero => intro a b; simp [lcsGo]
  | succ f ih =>
    intro a b
    cases a with
    | nil => simp [lcsGo]
    | cons x xs =>
      cases b with
      | nil => simp [lcsGo]
      | cons y ys =>
        simp only [lcsGo]
        by_cases hxy : x = y
        · simp only [if_pos hxy, hxy]
          exact List.Sublist.cons₂ y (ih xs ys)
        · simp only [if_neg hxy]
          by_cases hcmp : lcsLen xs (y :: ys) > lcsLen (x :: xs) ys
          · simpa [hcmp] using ih xs (y :: ys)
          · simpa [hcmp] using List.Sublist.cons y (ih (x :: xs) ys)

theorem compute_lcs_sublist_left (a b : List Str) :
    List.Sublist (compute_lcs a b) a := by
  have h := lcsGo_sublist_left (a.length + b.length + 1) a.reverse b.reverse
  have h2 := List.reverse_sublist.mpr h
  simpa using h2

theorem compute_lcs_sublist_right (a b : List Str) :
    List.Sublist (compute_lcs a b) b := by
  have h := lcsGo_sublist_right (a.length + b.length + 1) a.reverse b.reverse
  have h2 := List.reverse_sublist.mpr h
  simpa using h2

theorem lcsGo_self (fuel : Nat) :
    ∀ r : List Str, r.length < fuel → lcsGo fuel r r = r := by
  induction fuel with
  | zero => intro r h; omega
  | succ f ih =>
    intro r h
    cases r with
    | nil => simp [lcsGo]
    | cons x xs =>
      simp only [lcsGo, if_pos rfl]
      rw [ih xs (by simpa using Nat.lt_of_succ_lt_succ h)]
      simp

theorem compute_lcs_self (a : List Str) : compute_lcs a a = a := by
  unfold compute_lcs
  rw [lcsGo_self (a.length + a.length + 1) a.reverse (by simp; omega)]
  simp

theorem sublist_cons_of_ne (k x : Str) (ks xs : List Str)
    (h : List.Sublist (k :: ks) (x :: xs)) (hne : k ≠ x) :
    List.Sublist (k :: ks) xs := by
  cases h with
  | cons _ h' => exact h'
  | cons₂ _ h' => exact absurd rfl hne

theorem sublist_tail_of_cons (k x : Str) (ks xs : List Str)
    (h : List.Sublist (k :: ks) (x :: xs)) : List.Sublist ks xs := by
  cases h with
  | cons _ h' => exact List.sublist_of_cons_sublist h'
  | cons₂ _ h' => exact h'

/-- Strip the prefixes of the space- and plus-marked lines of a diff body, in
order: the modified side of the rendered diff. -/
def plusSpaceOf (body : List Str) : List Str :=
  body.filterMap (fun l => match l with
    | c :: rest => if c = '+' ∨ c = ' ' then some rest else none
    | [] => none)

/-- Strip the prefixes of the space- and minus-marked lines of a diff body, in
order: the original side of the rendered diff. -/
def minusSpaceOf (body : List Str) : List Str :=
  body.filterMap (fun l => match l with
    | c :: rest => if c = '-' ∨ c = ' ' then some rest else none
    | [] => none)

theorem plusSpaceOf_minusMap (a : List Str) :
    plusSpaceOf (a.map (fun l => '-' :: l)) = [] := by
  induction a with
  | nil => rfl
  | cons x xs ih => simpa [plusSpaceOf] using ih

theorem plusSpaceOf_plusMap (b : List Str) :
    plusSpaceOf (b.map (fun l => '+' :: l)) = b := by
  induction b with
  | nil => rfl
  | cons x xs ih => simpa [plusSpaceOf] using ih

theorem minusSpaceOf_minusMap (a : List Str) :
    minusSpaceOf (a.map (fun l => '-' :: l)) = a := by
  induction a with
  | nil => rfl
  | cons x xs ih => simpa [minusSpaceOf] using ih

theorem minusSpaceOf_plusMap (b : List Str) :
    minusSpaceOf (b.map (fun l => '+' :: l)) = [] := by
  induction b with
  | nil => rfl
  | cons x xs ih => simpa [minusSpaceOf] using ih

theorem plusSpaceOf_append (u v : List Str) :
    plusSpaceOf (u ++ v) = plusSpaceOf u ++ plusSpaceOf v := by
  simp [plusSpaceOf, List.filterMap_append]

theorem minusSpaceOf_append (u v : List Str) :
    minusSpaceOf (u ++ v) = minusSpaceOf u ++ minusSpaceOf v := by
  simp [minusSpaceOf, List.filterMap_append]

theorem plusSpaceOf_cons_space (x : Str) (r : List Str) :
    plusSpaceOf ((' ' :: x) :: r) = x :: plusSpaceOf r := by simp [plusSpaceOf]

theorem plusSpaceOf_cons_plus (x : Str) (r : List Str) :
    plusSpaceOf (('+' :: x) :: r) = x :: plusSpaceOf r := by simp [plusSpaceOf]

theorem plusSpaceOf_cons_minus (x : Str) (r : List Str) :
    plusSpaceOf (('-' :: x) :: r) = plusSpaceOf r := by simp [plusSpaceOf]

theorem minusSpaceOf_cons_space (x : Str) (r : List Str) :
    minusSpaceOf ((' ' :: x) :: r) = x :: minusSpaceOf r := by simp [minusSpaceOf]

theorem minusSpaceOf_cons_plus (x : Str) (r : List Str) :
    minusSpaceOf (('+' :: x) :: r) = minusSpaceOf r := by simp [minusSpaceOf]

theorem minusSpaceOf_cons_minus (x : Str) (r : List Str) :
    minusSpaceOf (('-' :: x) :: r) = x :: minusSpaceOf r := by simp [minusSpaceOf]

/-- The diff walk succeeds (no panic) whenever the lcs argument is a common
subsequence of both line sequences, and its body's plus/space lines are
exactly the modified side while its minus/space lines are exactly the original
side. -/
theorem diffWalk_spec (fuel : Nat) :
    ∀ (a b l : List Str), List.Sublist l a → List.Sublist l b →
      a.length + b.length < fuel →
      ∃ out, diffWalk fuel a b l = some out ∧
        plusSpaceOf out = b ∧ minusSpaceOf out = a := by
  induction fuel with
  | zero => intro a b l _ _ h; omega
  | succ f ih =>
    intro a b l hla hlb hlen
    cases l with
    | nil =>
      refine ⟨_, rfl, ?_, ?_⟩
      · rw [plusSpaceOf_append, plusSpaceOf_minusMap, plusSpaceOf_plusMap]
        simp
      · rw [minusSpaceOf_append, minusSpaceOf_minusMap, minusSpaceOf_plusMap]
        simp
    | cons k ks =>
      cases a with
      | nil =>
        refine ⟨_, rfl, ?_, ?_⟩
        · exact plusSpaceOf_plusMap b
        · exact minusSpaceOf_plusMap b
      | cons x xs =>
        by_cases hxk : x = k
        · subst hxk
          cases b with
          | nil => exact absurd (List.sublist_nil.mp hlb) (by simp)
          | cons y ys =>
            by_cases hxy : x = y
            · subst hxy
              have h1 : List.Sublist ks xs := sublist_tail_of_cons x x ks xs hla
              have h2 : List.Sublist ks ys := sublist_tail_of_cons x x ks ys hlb
              obtain ⟨out, hout, hplus, hminus⟩ :=
                ih xs ys ks h1 h2 (by simp at hlen ⊢; omega)
              refine ⟨(' ' :: x) :: out, ?_, ?_, ?_⟩
              · simp [diffWalk, hout]
              · rw [plusSpaceOf_cons_space, hplus]
              · rw [minusSpaceOf_cons_space, hminus]
            · have h2 : List.Sublist (x :: ks) ys :=
                sublist_cons_of_ne x y ks ys hlb hxy
              obtain ⟨out, hout, hplus, hminus⟩ :=
                ih (x :: xs) ys (x :: ks) hla h2 (by simp at hlen ⊢; omega)
              refine ⟨('+' :: y) :: out, ?_, ?_, ?_⟩
              · simp [diffWalk, hxy, hout]
              · rw [plusSpaceOf_cons_plus, hplus]
              · rw [minusSpaceOf_cons_plus, hminus]
        · have h1 : List.Sublist (k :: ks) xs :=
            sublist_cons_of_ne k x ks xs hla (fun h => hxk h.symm)
          obtain ⟨out, hout, hplus, hminus⟩ :=
            ih xs b (k :: ks) h1 hlb (by simp at hlen ⊢; omega)
          refine ⟨('-' :: x) :: out, ?_, ?_, ?_⟩
          · simp [diffWalk, hxk, hout]
          · rw [plusSpaceOf_cons_minus, hplus]
          · rw [minusSpaceOf_cons_minus, hminus]

theorem diffWalk_self (fuel : Nat) :
    ∀ a : List Str, a.length < fuel →
      diffWalk fuel a a a = some (a.map (fun l => ' ' :: l)) := by
  induction fuel with
  | zero => intro a h; omega
  | succ f ih =>
    intro a h
    cases a with
    | nil => simp [diffWalk]
    | cons x xs =>
      simp only [diffWalk, if_pos rfl, List.map_cons]
      rw [ih xs (by simpa using Nat.lt_of_succ_lt_succ h)]
      rfl

/-- The diff of any original/modified pair renders (no panic). -/
theorem generate_diff_some (o m f : Str) : ∃ d, generate_diff o m f = some d := by
  obtain ⟨out, hout, _, _⟩ := diffWalk_spec
    ((rustLines o).length + (rustLines m).length + 1)
    (rustLines o) (rustLines m) (compute_lcs (rustLines o) (rustLines m))
    (compute_lcs_sublist_left _ _) (compute_lcs_sublist_right _ _) (by omega)
  refine ⟨diffHeader f ++ out.flatMap (fun l => l ++ ['\n']), ?_⟩
  simp [generate_diff, hout]

/-- C8: the generated diff round-trips: the body's space- and plus-prefixed
lines, in order, are exactly the modified text's line sequence, and its space-
and minus-prefixed lines are exactly the original's; when original equals
modified the body consists of context lines only, with zero '+' or '-' lines. -/
theorem c8_diff_roundtrip (o m f : Str) :
    ∃ body,
      diffWalk ((rustLines o).length + (rustLines m).length + 1) (rustLines o)
        (rustLines m) (compute_lcs (rustLines o) (rustLines m)) = some body ∧
      generate_diff o m f
        = some (diffHeader f ++ body.flatMap (fun l => l ++ ['\n'])) ∧
      plusSpaceOf body = rustLines m ∧
      minusSpaceOf body = rustLines o ∧
      (o = m → body = (rustLines o).map (fun l => ' ' :: l)) ∧
      (o = m → ∀ l ∈ body, l.take 1 ≠ ['+'] ∧ l.take 1 ≠ ['-']) := by
  obtain ⟨body, hbody, hplus, hminus⟩ := diffWalk_spec
    ((rustLines o).length + (rustLines m).length + 1)
    (rustLines o) (rustLines m) (compute_lcs (rustLines o) (rustLines m))
    (compute_lcs_sublist_left _ _) (compute_lcs_sublist_right _ _) (by omega)
  have hmap : o = m → body = (rustLines o).map (fun l => ' ' :: l) := by
    intro he
    subst he
    have hself := diffWalk_self ((rustLines o).length + (rustLines o).length + 1)
      (rustLines o) (by omega)
    rw [compute_lcs_self (rustLines o)] at hbody
    rw [hself] at hbody
    exact (Option.some.injEq _ _).mp hbody.symm |>.symm ▸ (by
      cases hbody with
      | refl => rfl)
  refine ⟨body, hbody, ?_, hplus, hminus, hmap, ?_⟩
  · simp [generate_diff, hbody]
  · intro he l hl
    have := hmap he
    subst this
    obtain ⟨x, _, rfl⟩ := List.mem_map.mp hl
    constructor <;> simp

/-- C5: with the section and block resolved, a Replace or Delete without a
fingerprint and without force fails with the unsafe-destructive error; a
supplied fingerprint that does not match the block's content fails with the
fingerprint-mismatch error whatever the operation or force flag; and a Replace
or Delete whose fingerprint matches (or a Replace or Delete forced without a
fingerprint) proceeds to mutate exactly the targeted block. -/
theorem c5_fingerprint_gating (rm : Str → Str → Bool) (t : Str)
    (op : PatchOperation) (secs : List Section) (sec : Section) (b : Block)
    (hp : parse_sections t = .ok secs)
    (hf : find_section secs op.heading_path = .ok sec)
    (hg : get_block sec op.block_index = .ok b) :
    ((op.operation = .replace ∨ op.operation = .delete) → op.fingerprint = none →
      apply_operation rm t op false = .error .unsafeDestructiveOperation) ∧
    (∀ fp force, op.fingerprint = some fp → rm fp b.content = false →
      apply_operation rm t op force = .error .fingerprintMismatch) ∧
    (∀ fp c, op.fingerprint = some fp → rm fp b.content = true →
      op.operation = .replace → op.content = some c →
      ∃ d, apply_operation rm t op true
        = .ok (.applied (t.take b.start ++ c ++ t.drop b.stop) d)) ∧
    (∀ fp, op.fingerprint = some fp → rm fp b.content = true → op.operation = .delete →
      ∃ d, apply_operation rm t op true
        = .ok (.applied (collapseNl (t.take b.start ++ t.drop b.stop)) d)) ∧
    (∀ c, op.fingerprint = none → op.operation = .replace → op.content = some c →
      ∃ d, apply_operation rm t op true
        = .ok (.applied (t.take b.start ++ c ++ t.drop b.stop) d)) ∧
    (op.fingerprint = none → op.operation = .delete →
      ∃ d, apply_operation rm t op true
        = .ok (.applied (collapseNl (t.take b.start ++ t.drop b.stop)) d)) := by
  refine ⟨?_, ?_, ?_, ?_, ?_, ?_⟩
  · intro hop hfp
    rcases hop with hop | hop <;>
      simp [apply_operation, hp, hf, hg, hfp, hop, isDestructive]
  · intro fp force hfp hrm
    simp [apply_operation, hp, hf, hg, hfp, hrm]
  · intro fp c hfp hrm hop hc
    obtain ⟨d, hd⟩ := generate_diff_some t
      (t.take b.start ++ (c ++ t.drop b.stop)) (cleanFilename op.file)
    refine ⟨d, ?_⟩
    simp [apply_operation, hp, hf, hg, hfp, hrm, hop, hc, apply_replace, hd]
  · intro fp hfp hrm hop
    obtain ⟨d, hd⟩ := generate_diff_some t
      (collapseNl (t.take b.start ++ t.drop b.stop)) (cleanFilename op.file)
    refine ⟨d, ?_⟩
    simp [apply_operation, hp, hf, hg, hfp, hrm, hop, apply_delete, hd]
  · intro c hfp hop hc
    obtain ⟨d, hd⟩ := generate_diff_some t
      (t.take b.start ++ (c ++ t.drop b.stop)) (cleanFilename op.file)
    refine ⟨d, ?_⟩
    simp [apply_operation, hp, hf, hg, hfp, hop, hc, apply_replace, hd, isDestructive]
  · intro hfp hop
    obtain ⟨d, hd⟩ := generate_diff_some t
      (collapseNl (t.take b.start ++ t.drop b.stop)) (cleanFilename op.file)
    refine ⟨d, ?_⟩
    simp [apply_operation, hp, hf, hg, hfp, hop, apply_delete, hd, isDestructive]

/-- Witness for C5: on the document "# Doc\n\nOld\n" (its only block is the
paragraph "Old" at offsets [7, 10)), with a literal-substring matcher standing
in for the regex engine: an unforced fingerprint-less Replace is refused, a
non-matching fingerprint is a mismatch even with force, a matching
fingerprint lets Replace splice exactly the target range, and a forced
fingerprint-less Delete proceeds to delete the target range. -/
theorem c5_fingerprint_gating_witness :
    apply_operation (fun p s => containsSub p s) ("# Doc\n\nOld\n".toList)
      ⟨"d.md".toList, ["# Doc".toList], 0, .replace, some ("New".toList), none⟩ false
      = .error .unsafeDestructiveOperation ∧
    apply_operation (fun p s => containsSub p s) ("# Doc\n\nOld\n".toList)
      ⟨"d.md".toList, ["# Doc".toList], 0, .replace, some ("New".toList),
        some ("Zzz".toList)⟩ true
      = .error .fingerprintMismatch ∧
    (∃ d, apply_operation (fun p s => containsSub p s) ("# Doc\n\nOld\n".toList)
      ⟨"d.md".toList, ["# Doc".toList], 0, .replace, some ("New".toList),
        some ("Old".toList)⟩ true
      = .ok (.applied (("# Doc\n\nOld\n".toList).take 7 ++ ("New".toList)
          ++ ("# Doc\n\nOld\n".toList).drop 10) d)) ∧
    (∃ d, apply_operation (fun p s => containsSub p s) ("# Doc\n\nOld\n".toList)
      ⟨"d.md".toList, ["# Doc".toList], 0, .delete, none, none⟩ true
      = .ok (.applied (collapseNl (("# Doc\n\nOld\n".toList).take 7
          ++ ("# Doc\n\nOld\n".toList).drop 10)) d)) := by
  refine ⟨?_, ?_, ?_, ?_⟩
  · exact (c5_fingerprint_gating (fun p s => containsSub p s) ("# Doc\n\nOld\n".toList)
      ⟨"d.md".toList, ["# Doc".toList], 0, .replace, some ("New".toList), none⟩
      _ _ ⟨7, 10, "Old".toList, .paragraph⟩ rfl rfl rfl).1 (Or.inl rfl) rfl
  · exact (c5_fingerprint_gating (fun p s => containsSub p s) ("# Doc\n\nOld\n".toList)
      ⟨"d.md".toList, ["# Doc".toList], 0, .replace, some ("New".toList),
        some ("Zzz".toList)⟩
      _ _ ⟨7, 10, "Old".toList, .paragraph⟩ rfl rfl rfl).2.1
      ("Zzz".toList) true rfl (by decide)
  · exact (c5_fingerprint_gating (fun p s => containsSub p s) ("# Doc\n\nOld\n".toList)
      ⟨"d.md".toList, ["# Doc".toList], 0, .replace, some ("New".toList),
        some ("Old".toList)⟩
      _ _ ⟨7, 10, "Old".toList, .paragraph⟩ rfl rfl rfl).2.2.1
      ("Old".toList) ("New".toList) rfl (by decide) rfl rfl
  · exact (c5_fingerprint_gating (fun p s => containsSub p s) ("# Doc\n\nOld\n".toList)
      ⟨"d.md".toList, ["# Doc".toList], 0, .delete, none, none⟩
      _ _ ⟨7, 10, "Old".toList, .paragraph⟩ rfl rfl rfl).2.2.2.2.2 rfl rfl

theorem joinNl_cons_flat (x : Str) (ls : List Str) :
    joinNl (x :: ls) = x ++ ls.flatMap (fun l => '\n' :: l) := by
  induction ls generalizing x with
  | nil => simp [joinNl]
  | cons y ys ih =>
    rw [joinNl_cons_ne x (y :: ys) (by simp), ih y]
    simp

theorem length_flatMap_nl (ls : List Str) :
    (ls.flatMap (fun l => '\n' :: l)).length = sumLens ls := by
  induction ls with
  | nil => simp [sumLens]
  | cons x xs ih =>
    simp only [List.flatMap_cons, List.length_append, ih, sumLens, List.map_cons,
      List.sum_cons, List.length_cons]

theorem sumLens_cons (x : Str) (xs : List Str) :
    sumLens (x :: xs) = x.length + 1 + sumLens xs := by
  simp [sumLens]

theorem joinNl_take_pre (l0 : Str) (rest : List Str) (k : Nat) (w : Str) (hk : 1 ≤ k) :
    joinNl ((l0 :: rest).take k) <+: joinNl (l0 :: rest) ++ w := by
  obtain ⟨k', rfl⟩ : ∃ k', k = k' + 1 := ⟨k - 1, by omega⟩
  rw [List.take_cons_succ, joinNl_cons_flat, joinNl_cons_flat]
  have hsplit : rest.flatMap (fun l => '\n' :: l)
      = (rest.take k').flatMap (fun l => '\n' :: l)
        ++ (rest.drop k').flatMap (fun l => '\n' :: l) := by
    rw [← List.flatMap_append, List.take_append_drop]
  refine ⟨(rest.drop k').flatMap (fun l => '\n' :: l) ++ w, ?_⟩
  rw [hsplit]
  simp

theorem joinNl_cons_take_len (l0 : Str) (rest : List Str) (k : Nat) :
    (joinNl (l0 :: rest.take k)).length = l0.length + sumLens (rest.take k) := by
  rw [joinNl_cons_flat]
  rw [List.length_append, length_flatMap_nl]

/-- Characterization of the common block loop once the accumulated content is
non-empty: it consumes some prefix of the remaining lines, appending a newline
and the line for each, with the offset advancing in lockstep. -/
theorem accLoop_ne_spec {σ : Type} (f : σ → Str → Option σ) (post : Str → Bool) :
    ∀ (rem : List Str) (st : σ) (c0 : Str) (off e : Nat), c0 ≠ [] →
      ∃ k, k ≤ rem.length ∧
        accLoop f post rem st c0 off e
          = (c0 ++ (rem.take k).flatMap (fun l => '\n' :: l),
             off + sumLens (rem.take k), e + k) := by
  intro rem
  induction rem with
  | nil =>
    intro st c0 off e hc0
    exact ⟨0, by simp, by simp [accLoop, sumLens]⟩
  | cons l rest ih =>
    intro st c0 off e hc0
    simp only [accLoop]
    cases hf : f st l with
    | none => exact ⟨0, by simp, by simp [sumLens]⟩
    | some st' =>
      have hstep : accStep l c0 off = (c0 ++ '\n' :: l, off + 1 + l.length) := by
        simp [accStep, hc0]
      by_cases hpost : post l
      · refine ⟨1, by simp, ?_⟩
        simp only [hstep, if_pos hpost, List.take_succ_cons, List.take_zero,
          List.flatMap_cons, List.flatMap_nil, List.append_nil, sumLens_cons]
        simp [sumLens]
        omega
      · obtain ⟨k, hk, hrec⟩ := ih st' (c0 ++ '\n' :: l) (off + 1 + l.length) (e + 1)
          (by simp)
        refine ⟨k + 1, by simpa using hk, ?_⟩
        simp only [hstep, if_neg hpost]
        rw [hrec, List.take_succ_cons, List.flatMap_cons, sumLens_cons]
        refine congrArg₂ Prod.mk ?_ (congrArg₂ Prod.mk ?_ ?_)
        · simp
        · omega
        · omega

/-- Characterization of the common block loop from its start (empty content),
when the first line is consumed and is non-empty: the result is the newline
join of the consumed slice, the offset advanced by exactly its length. -/
theorem accLoop_start_spec {σ : Type} (f : σ → Str → Option σ) (post : Str → Bool)
    (l1 : Str) (rest : List Str) (st st' : σ) (off e : Nat)
    (hf : f st l1 = some st') (hl1 : l1 ≠ []) :
    ∃ k, 1 ≤ k ∧ k ≤ (l1 :: rest).length ∧
      accLoop f post (l1 :: rest) st [] off e
        = (joinNl ((l1 :: rest).take k),
           off + (joinNl ((l1 :: rest).take k)).length, e + k) := by
  simp only [accLoop, hf]
  have hstep : accStep l1 [] off = (l1, off + l1.length) := by simp [accStep]
  by_cases hpost : post l1
  · refine ⟨1, le_refl 1, by simp, ?_⟩
    simp [hstep, hpost, List.take_succ_cons, joinNl]
  · obtain ⟨k, hk, hrec⟩ := accLoop_ne_spec f post rest st' l1 (off + l1.length) (e + 1) hl1
    refine ⟨k + 1, by omega, by simpa using hk, ?_⟩
    simp only [hstep, if_neg hpost]
    rw [hrec, List.take_succ_cons, joinNl_cons_flat]
    refine congrArg₂ Prod.mk rfl (congrArg₂ Prod.mk ?_ ?_)
    · rw [List.length_append, length_flatMap_nl]
      omega
    · omega

theorem codeLoop_cons (l : Str) (rest : List Str) (c0 : Str) (off e : Nat) :
    codeLoop (l :: rest) c0 off e =
      if trimStr l = fence3 then (c0 ++ '\n' :: l, off + l.length, e)
      else codeLoop rest (c0 ++ '\n' :: l) (off + l.length + 1) (e + 1) := rfl

theorem codeLoop_no_fence (rest : List Str) :
    ∀ (c0 : Str) (off e : Nat), (∀ l ∈ rest, trimStr l ≠ fence3) →
      codeLoop rest c0 off e
        = (c0 ++ rest.flatMap (fun l => '\n' :: l), off + sumLens rest, e + rest.length) := by
  induction rest with
  | nil => intro c0 off e _; simp [codeLoop, sumLens]
  | cons l rest2 ih =>
    intro c0 off e hall
    have hl : trimStr l ≠ fence3 := hall l (by simp)
    rw [codeLoop_cons, if_neg hl]
    rw [ih (c0 ++ '\n' :: l) (off + l.length + 1) (e + 1)
      (fun x hx => hall x (by simp [hx]))]
    rw [List.flatMap_cons, sumLens_cons]
    refine congrArg₂ Prod.mk ?_ (congrArg₂ Prod.mk ?_ ?_)
    · simp
    · omega
    · simp only [List.length_cons]
      omega

theorem codeLoop_fence (pre : List Str) (fl : Str) (post : List Str) :
    ∀ (c0 : Str) (off e : Nat), (∀ l ∈ pre, trimStr l ≠ fence3) → trimStr fl = fence3 →
      codeLoop (pre ++ fl :: post) c0 off e
        = (c0 ++ (pre ++ [fl]).flatMap (fun l => '\n' :: l),
           off + sumLens pre + fl.length, e + pre.length) := by
  induction pre with
  | nil =>
    intro c0 off e _ hfl
    simp [codeLoop, hfl, sumLens]
  | cons l pre2 ih =>
    intro c0 off e hall hfl
    have hl : trimStr l ≠ fence3 := hall l (by simp)
    rw [List.cons_append, codeLoop_cons, if_neg hl]
    rw [ih (c0 ++ '\n' :: l) (off + l.length + 1) (e + 1)
      (fun x hx => hall x (by simp [hx])) hfl]
    rw [sumLens_cons]
    refine congrArg₂ Prod.mk ?_ (congrArg₂ Prod.mk ?_ ?_)
    · simp
    · omega
    · simp only [List.length_cons]
      omega

theorem getD_cons_drop (lines : List Str) (i : Nat) (h : i < lines.length) :
    lines.drop i = lines.getD i [] :: lines.drop (i + 1) := by
  rw [List.drop_eq_getElem_cons h]
  congr 1
  simp [List.getD_eq_getElem?_getD, List.getElem?_eq_getElem h]

theorem ne_nil_of_trim_ne (l : Str) (h : trimStr l ≠ []) : l ≠ [] := by
  intro he
  exact h (by simp [he, trimStr])

theorem mem_of_mem_trim (c : Char) (l : Str) (h : c ∈ trimStr l) : c ∈ l := by
  unfold trimStr at h
  have h1 := List.mem_reverse.mp h
  have h2 := (List.dropWhile_sublist isWsB).subset h1
  have h3 := List.mem_reverse.mp h2
  exact (List.dropWhile_sublist isWsB).subset h3

theorem startsC_ne_nil (c : Char) (s : Str) (h : startsC c s = true) : s ≠ [] := by
  cases s with
  | nil => simp [startsC] at h
  | cons x xs => simp

theorem startsS_ne_nil (p s : Str) (hp : p ≠ []) (h : startsS p s = true) : s ≠ [] := by
  cases s with
  | nil =>
    cases p with
    | nil => exact absurd rfl hp
    | cons x xs => simp [startsS, List.isPrefixOf] at h
  | cons x xs => simp

theorem joinNl_take_ne (l0 : Str) (rest : List Str) (k : Nat)
    (h1 : 1 ≤ k) (h0 : l0 ≠ []) : joinNl ((l0 :: rest).take k) ≠ [] := by
  obtain ⟨k', rfl⟩ : ∃ k', k = k' + 1 := ⟨k - 1, by omega⟩
  rw [List.take_succ_cons, joinNl_cons_flat]
  simp [h0]

/-- The shape shared by every block produced by the classifier: it starts at
the running offset, its content is the newline join of the consumed slice of
lines, and its end offset is the start plus the content length. -/
def blockConc (lines : List Str) (i off : Nat) (b : Block) (n : Nat) : Prop :=
  ∃ k, 1 ≤ k ∧ k ≤ (lines.drop i).length ∧ n = i + k ∧
    b.start = off ∧ b.content ≠ [] ∧
    b.content = joinNl ((lines.drop i).take k) ∧
    b.stop = off + b.content.length

theorem acc_parser_conc {σ : Type} (f : σ → Str → Option σ) (post : Str → Bool)
    (lines : List Str) (i off : Nat) (st st' : σ)
    (hlt : i < lines.length)
    (hf : f st (lines.getD i []) = some st')
    (hl1 : lines.getD i [] ≠ []) (bt : BlockType) (b : Block) (n : Nat)
    (hres : ((⟨off, (accLoop f post (lines.drop i) st [] off i).2.1,
              (accLoop f post (lines.drop i) st [] off i).1, bt⟩ : Block),
             (accLoop f post (lines.drop i) st [] off i).2.2) = (b, n)) :
    blockConc lines i off b n := by
  have hdc := getD_cons_drop lines i hlt
  obtain ⟨k, hk1, hk2, heq⟩ := accLoop_start_spec f post (lines.getD i [])
    (lines.drop (i + 1)) st st' off i hf hl1
  rw [hdc, heq] at hres
  injection hres with hb hn
  refine ⟨k, hk1, ?_, ?_, ?_, ?_, ?_, ?_⟩
  · rw [hdc]
    simpa using hk2
  · exact hn.symm
  · rw [← hb]
  · rw [← hb]
    exact joinNl_take_ne _ _ k hk1 hl1
  · rw [← hb, hdc]
  · rw [← hb]

theorem sumLens_append (u v : List Str) : sumLens (u ++ v) = sumLens u + sumLens v := by
  simp [sumLens]

/-- Lines that are not a closing fence. -/
def notFence (l : Str) : Bool := !(decide (trimStr l = fence3))

theorem dropWhile_head_not (p : Str → Bool) (l : List Str) (x : Str) (xs : List Str)
    (h : l.dropWhile p = x :: xs) : p x = false := by
  induction l with
  | nil => simp [List.dropWhile] at h
  | cons a as ih =>
    rw [List.dropWhile_cons] at h
    by_cases hp : p a
    · simp only [if_pos hp] at h
      exact ih h
    · simp only [if_neg hp] at h
      injection h with h1 _
      rw [← h1]
      simpa using hp

theorem parse_code_conc_aux (lines : List Str) (i off : Nat) (b : Block) (n : Nat)
    (pre : List Str) (fl : Str) (post2 : List Str)
    (hlt : i < lines.length) (hl1 : lines.getD i [] ≠ [])
    (hsp : pre ++ fl :: post2 = lines.drop (i + 1))
    (hallpre : ∀ l ∈ pre, trimStr l ≠ fence3) (hfl : trimStr fl = fence3)
    (hpb : parse_code_block lines i off = some (b, n)) :
    blockConc lines i off b n := by
  have hdc := getD_cons_drop lines i hlt
  have hcl := codeLoop_fence pre fl post2 (lines.getD i [])
    (off + (lines.getD i []).length + 1) (i + 1) hallpre hfl
  simp only [parse_code_block] at hpb
  rw [← hsp, hcl] at hpb
  have hint := Option.some.inj hpb
  have hbs : b.start = off := by
    have := congrArg (fun q => (Prod.fst q).start) hint
    simpa using this.symm
  have hbc : b.content = lines.getD i []
      ++ (pre ++ [fl]).flatMap (fun l => '\n' :: l) := by
    have := congrArg (fun q => (Prod.fst q).content) hint
    simpa using this.symm
  have hbe : b.stop = off + (lines.getD i []).length + 1 + sumLens pre + fl.length := by
    have := congrArg (fun q => (Prod.fst q).stop) hint
    simpa using this.symm
  have hn2 : n = i + 1 + pre.length + 1 := by
    have := congrArg Prod.snd hint
    simpa using this.symm
  have htake : (pre ++ fl :: post2).take (pre.length + 1) = pre ++ [fl] := by
    rw [List.take_append 1]
    simp
  have hlen3 : pre.length + (post2.length + 1) = (lines.drop (i + 1)).length := by
    have := congrArg List.length hsp
    simpa using this
  have hlen4 : (lines.drop (i + 1)).length = lines.length - (i + 1) :=
    List.length_drop _ _
  have hlen5 : (lines.drop i).length = lines.length - i := List.length_drop _ _
  refine ⟨pre.length + 2, by omega, by omega, by omega, hbs, ?_, ?_, ?_⟩
  · rw [hbc]
    simp [hl1]
  · rw [hbc, hdc, List.take_succ_cons, ← hsp, htake, joinNl_cons_flat]
  · rw [hbe, hbc, List.length_append, length_flatMap_nl, sumLens_append]
    simp only [sumLens, List.map_cons, List.map_nil, List.sum_cons, List.sum_nil]
    omega

theorem parse_code_conc (lines : List Str) (i off : Nat) (b : Block) (n : Nat)
    (hlt : i < lines.length) (hl1 : lines.getD i [] ≠ [])
    (hpb : parse_code_block lines i off = some (b, n)) (hle : n ≤ lines.length) :
    blockConc lines i off b n := by
  have hsplit0 : (lines.drop (i + 1)).takeWhile notFence
      ++ (lines.drop (i + 1)).dropWhile notFence = lines.drop (i + 1) :=
    List.takeWhile_append_dropWhile notFence (lines.drop (i + 1))
  have hallpre : ∀ l ∈ (lines.drop (i + 1)).takeWhile notFence, trimStr l ≠ fence3 := by
    intro l hl
    have := List.mem_takeWhile_imp hl
    simpa [notFence] using this
  cases hdw : (lines.drop (i + 1)).dropWhile notFence with
  | nil =>
    exfalso
    rw [hdw, List.append_nil] at hsplit0
    have hall : ∀ l ∈ lines.drop (i + 1), trimStr l ≠ fence3 := by
      intro l hl
      rw [← hsplit0] at hl
      exact hallpre l hl
    have hcl := codeLoop_no_fence (lines.drop (i + 1)) (lines.getD i [])
      (off + (lines.getD i []).length + 1) (i + 1) hall
    simp only [parse_code_block] at hpb
    rw [hcl] at hpb
    have hint := Option.some.inj hpb
    have hn2 : n = i + 1 + (lines.drop (i + 1)).length + 1 := by
      have h2 := congrArg Prod.snd hint
      simpa using h2.symm
    have hlen2 : (lines.drop (i + 1)).length = lines.length - (i + 1) :=
      List.length_drop _ _
    omega
  | cons fl post2 =>
    rw [hdw] at hsplit0
    have hfl : trimStr fl = fence3 := by
      have := dropWhile_head_not notFence (lines.drop (i + 1)) fl post2 hdw
      simpa [notFence] using this
    exact parse_code_conc_aux lines i off b n ((lines.drop (i + 1)).takeWhile notFence)
      fl post2 hlt hl1 hsplit0 hallpre hfl hpb

/-- Every block the classifier reports with a properly advancing, in-range
next index has the common shape: it starts at the running offset, its content
is the newline join of the consumed line slice, and its end offset is the
start plus the content length. -/
theorem parse_block_spec (lines : List Str) (i off : Nat) (b : Block) (n : Nat)
    (hlt : i < lines.length)
    (hpb : parse_block lines i off = some (b, n))
    (hgt : i < n) (hle : n ≤ lines.length) :
    blockConc lines i off b n := by
  simp only [parse_block, if_pos hlt] at hpb
  by_cases h1 : (trimStr (lines.getD i [])).isEmpty
  · rw [if_pos h1] at hpb
    exact absurd hpb (by simp)
  rw [if_neg h1] at hpb
  by_cases h2 : startsS fence3 (trimStr (lines.getD i [])) = true
  · rw [if_pos h2] at hpb
    have hl0 : lines.getD i [] ≠ [] :=
      ne_nil_of_trim_ne _ (startsS_ne_nil fence3 _ (by simp [fence3]) h2)
    exact parse_code_conc lines i off b n hlt hl0 hpb hle
  rw [if_neg h2] at hpb
  by_cases h3 : (trimStr (lines.getD i [])).contains '|' = true
  · rw [if_pos h3] at hpb
    have hmem : '|' ∈ lines.getD i [] :=
      mem_of_mem_trim _ _ (List.mem_of_elem_eq_true h3)
    have hl0 : lines.getD i [] ≠ [] := List.ne_nil_of_mem hmem
    have hf : fTable () (lines.getD i []) = some () := by
      have hcont : (lines.getD i []).contains '|' = true := List.elem_eq_true_of_mem hmem
      simp only [fTable]
      rw [hcont]
      simp
    simp only [parse_table] at hpb
    exact acc_parser_conc fTable blankL lines i off () () hlt hf hl0 .table b n
      (Option.some.inj hpb)
  rw [if_neg h3] at hpb
  by_cases h4 : startsC '>' (trimStr (lines.getD i [])) = true
  · rw [if_pos h4] at hpb
    have hl0 : lines.getD i [] ≠ [] :=
      ne_nil_of_trim_ne _ (startsC_ne_nil '>' _ h4)
    by_cases hq : (!(startsC '>' (lines.getD i [])) && !(blankL (lines.getD i []))) = true
    · exfalso
      have hfq : fQuote () (lines.getD i []) = none := by
        simp only [fQuote]
        rw [if_pos hq]
      simp only [parse_block_quote] at hpb
      rw [getD_cons_drop lines i hlt] at hpb
      simp only [accLoop, hfq] at hpb
      have := congrArg Prod.snd (Option.some.inj hpb)
      simp at this
      omega
    · have hfq : fQuote () (lines.getD i []) = some () := by
        simp only [fQuote]
        rw [if_neg (by simpa using hq)]
      simp only [parse_block_quote] at hpb
      exact acc_parser_conc fQuote (fun _ => false) lines i off () () hlt hfq hl0
        .blockQuote b n (Option.some.inj hpb)
  rw [if_neg h4] at hpb
  by_cases h5 : listRe (trimStr (lines.getD i [])) = true
  · rw [if_pos h5] at hpb
    have htne : trimStr (lines.getD i []) ≠ [] := by
      intro he
      rw [he] at h5
      exact absurd h5 (by decide)
    have hl0 : lines.getD i [] ≠ [] := ne_nil_of_trim_ne _ htne
    have hf : fList () (lines.getD i []) = some () := by
      simp only [fList]
      rw [h5]
      simp
    simp only [parse_list] at hpb
    exact acc_parser_conc fList (fun _ => false) lines i off () () hlt hf hl0
      (.list (match trimStr (lines.getD i []) with
              | c :: _ => c.isDigit
              | [] => false)) b n (Option.some.inj hpb)
  rw [if_neg h5] at hpb
  by_cases h6 : (startsC '<' (trimStr (lines.getD i []))
      && !(startsS ['<', '!', '-', '-'] (trimStr (lines.getD i [])))) = true
  · rw [if_pos h6] at hpb
    have hl0 : lines.getD i [] ≠ [] := by
      refine ne_nil_of_trim_ne _ (startsC_ne_nil '<' _ ?_)
      exact (Bool.and_eq_true ..).mp h6 |>.1
    have hblank : blankL (lines.getD i []) = false := by
      simp only [blankL]
      simpa using h1
    obtain ⟨st', hf⟩ : ∃ st', fHtml 0 (lines.getD i []) = some st' := by
      refine ⟨0 + (if (lines.getD i []).contains '<'
          && !(containsSub ['<', '/'] (lines.getD i [])) then 1 else 0)
          - (if containsSub ['<', '/'] (lines.getD i []) then 1 else 0), ?_⟩
      simp only [fHtml]
      rw [hblank]
      simp
    simp only [parse_html_block] at hpb
    exact acc_parser_conc fHtml (fun _ => false) lines i off 0 st' hlt hf hl0
      .html b n (Option.some.inj hpb)
  rw [if_neg h6] at hpb
  by_cases h7 : thematicRe (trimStr (lines.getD i [])) = true
  · rw [if_pos h7] at hpb
    have htne : trimStr (lines.getD i []) ≠ [] := by
      intro he
      rw [he] at h7
      exact absurd h7 (by decide)
    have hl0 : lines.getD i [] ≠ [] := ne_nil_of_trim_ne _ htne
    have hint := Option.some.inj hpb
    have hbs : b.start = off := by
      have := congrArg (fun q => (Prod.fst q).start) hint
      simpa using this.symm
    have hbc : b.content = lines.getD i [] := by
      have := congrArg (fun q => (Prod.fst q).content) hint
      simpa using this.symm
    have hbe : b.stop = off + (lines.getD i []).length := by
      have := congrArg (fun q => (Prod.fst q).stop) hint
      simpa using this.symm
    have hn2 : n = i + 1 := by
      have := congrArg Prod.snd hint
      simpa using this.symm
    refine ⟨1, le_refl 1, ?_, by omega, hbs, ?_, ?_, ?_⟩
    · have := List.length_drop i lines
      omega
    · rw [hbc]
      exact hl0
    · rw [hbc, getD_cons_drop lines i hlt]
      simp [joinNl]
    · rw [hbe, hbc]
  rw [if_neg h7] at hpb
  cases hfp : fPara () (lines.getD i []) with
  | none =>
    exfalso
    simp only [parse_paragraph] at hpb
    rw [getD_cons_drop lines i hlt] at hpb
    simp only [accLoop, hfp] at hpb
    exact absurd hpb (by simp)
  | some u =>
    have hblank : blankL (lines.getD i []) = false := by
      simp only [fPara] at hfp
      by_cases hb : blankL (lines.getD i []) = true
      · rw [if_pos (by rw [hb]; simp)] at hfp
        exact absurd hfp (by simp)
      · simpa using hb
    have hl0 : lines.getD i [] ≠ [] := by
      refine ne_nil_of_trim_ne _ ?_
      simp only [blankL] at hblank
      simpa using hblank
    simp only [parse_paragraph] at hpb
    cases hemp : ((accLoop fPara (fun _ => false) (lines.drop i) () [] off i).1).isEmpty
    · rw [hemp] at hpb
      simp only [Bool.false_eq_true, if_false] at hpb
      cases u
      exact acc_parser_conc fPara (fun _ => false) lines i off () () hlt hfp hl0
        .paragraph b n (Option.some.inj hpb)
    · rw [hemp] at hpb
      exact absurd hpb (by simp)

/-- One line step of the offset invariant: past a consumed line, the remaining
text is the join of the remaining lines (plus the trailing newline). -/
theorem stepT (t : Str) (lines : List Str) (i off : Nat)
    (hT : t.drop off = joinNl (lines.drop i) ++ nlTail t)
    (hi1 : i + 1 < lines.length) :
    t.drop (off + (lines.getD i []).length + 1)
      = joinNl (lines.drop (i + 1)) ++ nlTail t := by
  have hi : i < lines.length := by omega
  have hdc := getD_cons_drop lines i hi
  have hrest : lines.drop (i + 1) ≠ [] := by
    intro he
    rw [List.drop_eq_nil_iff] at he
    omega
  have hjoin : joinNl (lines.drop i) ++ nlTail t
      = (lines.getD i [] ++ ['\n'])
        ++ (joinNl (lines.drop (i + 1)) ++ nlTail t) := by
    rw [hdc, joinNl_cons_ne _ _ hrest]
    simp
  have hdd : t.drop (off + (lines.getD i []).length + 1)
      = (t.drop off).drop ((lines.getD i []).length + 1) := by
    rw [List.drop_drop]
    congr 1 <;> omega
  rw [hdd, hT, hjoin]
  have hlen : (lines.getD i [] ++ ['\n']).length = (lines.getD i []).length + 1 := by
    simp
  rw [List.drop_left' hlen]

/-- Iterated offset step over a consumed slice of lines. -/
theorem stepTk (t : Str) (lines : List Str) :
    ∀ (k i off : Nat), t.drop off = joinNl (lines.drop i) ++ nlTail t →
      i + k < lines.length →
      t.drop (off + sumLens ((lines.drop i).take k))
        = joinNl (lines.drop (i + k)) ++ nlTail t := by
  intro k
  induction k with
  | zero =>
    intro i off hT _
    simpa [sumLens] using hT
  | succ k' ih =>
    intro i off hT hik
    have hi1 : i + 1 < lines.length := by omega
    have hstep := stepT t lines i off hT hi1
    have hrec := ih (i + 1) (off + (lines.getD i []).length + 1) hstep (by omega)
    have hdc := getD_cons_drop lines i (by omega)
    have hsum : off + sumLens ((lines.drop i).take (k' + 1))
        = off + (lines.getD i []).length + 1
          + sumLens ((lines.drop (i + 1)).take k') := by
      rw [hdc, List.take_succ_cons, sumLens_cons]
      omega
    rw [hsum]
    have hidx : i + (k' + 1) = (i + 1) + k' := by omega
    rw [hidx]
    exact hrec

/-- The invariant claimed of every parsed block (C9): start at most end, end
within the text, and the content equal to the text slice between them. -/
def goodBlock (t : Str) (b : Block) : Prop :=
  b.start ≤ b.stop ∧ b.stop ≤ t.length ∧
  b.content = (t.drop b.start).take (b.stop - b.start)

theorem goodBlock_of_conc (t : Str) (lines : List Str) (i off : Nat) (b : Block) (n : Nat)
    (hi : i < lines.length)
    (hT : t.drop off = joinNl (lines.drop i) ++ nlTail t)
    (hconc : blockConc lines i off b n) : goodBlock t b := by
  obtain ⟨k, hk1, hk2, hkn, hbs, hbne, hbc, hbe⟩ := hconc
  have hdc := getD_cons_drop lines i hi
  have hpre : b.content <+: t.drop off := by
    rw [hbc, hT, hdc]
    exact joinNl_take_pre _ _ k (nlTail t) hk1
  have hlen1 : b.content.length ≤ (t.drop off).length := hpre.length_le
  have hdne : t.drop off ≠ [] := by
    intro he
    rw [he] at hpre
    rw [List.prefix_nil] at hpre
    exact hbne hpre
  have hofflt : off < t.length := by
    by_contra hc
    exact hdne (List.drop_eq_nil_iff.mpr (by omega))
  have hdlen : (t.drop off).length = t.length - off := List.length_drop _ _
  refine ⟨by omega, by omega, ?_⟩
  have htk : b.content = (t.drop off).take b.content.length :=
    List.prefix_iff_eq_take.mp hpre
  rw [hbs]
  have : b.stop - off = b.content.length := by omega
  rw [this]
  exact htk

theorem parseLoop_good (t : Str) :
    ∀ (fuel : Nat) (lines : List Str) (i off : Nat) (cur : Option Section)
      (acc secs : List Section),
      (i < lines.length → t.drop off = joinNl (lines.drop i) ++ nlTail t) →
      (∀ s, cur = some s → ∀ b ∈ s.blocks, goodBlock t b) →
      (∀ s ∈ acc, ∀ b ∈ s.blocks, goodBlock t b) →
      parseLoop lines fuel i off cur acc = .ok secs →
      ∀ s ∈ secs, ∀ b ∈ s.blocks, goodBlock t b := by
  intro fuel
  induction fuel with
  | zero =>
    intro lines i off cur acc secs _ _ _ hres
    exact absurd hres (by simp [parseLoop])
  | succ f ih =>
    intro lines i off cur acc secs hT hcur hacc hres
    simp only [parseLoop] at hres
    by_cases hi : i < lines.length
    · rw [if_pos hi] at hres
      have hflush : ∀ s ∈ flushSec cur acc, ∀ b ∈ s.blocks, goodBlock t b := by
        cases cur with
        | some c =>
          intro s hs
          simp only [flushSec, List.mem_append, List.mem_singleton] at hs
          cases hs with
          | inl h => exact hacc s h
          | inr h => exact h ▸ hcur c rfl
        | none => exact hacc
      cases hhp : headingParse (lines.getD i []) with
      | some p =>
        obtain ⟨lv, ht⟩ := p
        rw [hhp] at hres
        have hres2 : parseLoop lines f (i + 1) (off + (lines.getD i []).length + 1)
            (some ⟨ht, lv, off, off + (lines.getD i []).length, []⟩)
            (flushSec cur acc) = .ok secs := hres
        refine ih lines (i + 1) (off + (lines.getD i []).length + 1) _ _ secs
          (fun hi1 => stepT t lines i off (hT hi) hi1) ?_ hflush hres2
        intro s hs b hb
        injection hs with h2
        subst h2
        simp at hb
      | none =>
        rw [hhp] at hres
        cases cur with
        | some sec =>
          cases hpb : parse_block lines i off with
          | some bn =>
            obtain ⟨b, n⟩ := bn
            rw [hpb] at hres
            have hres2 : (if n ≤ lines.length then
                (if i < n then
                  parseLoop lines f n (off + sumLens ((lines.drop i).take (n - i)))
                    (some ⟨sec.heading, sec.heading_level, sec.heading_start,
                      sec.heading_end, sec.blocks ++ [b]⟩) acc
                 else ParseOutcome.diverge)
                else ParseOutcome.panic) = .ok secs := hres
            by_cases hn : n ≤ lines.length
            · rw [if_pos hn] at hres2
              by_cases hin : i < n
              · rw [if_pos hin] at hres2
                have hconc := parse_block_spec lines i off b n hi hpb hin hn
                have hgood : goodBlock t b := goodBlock_of_conc t lines i off b n hi (hT hi) hconc
                refine ih lines n (off + sumLens ((lines.drop i).take (n - i))) _ _ secs
                  ?_ ?_ hacc hres2
                · intro hnlt
                  have hk : i + (n - i) < lines.length := by omega
                  have := stepTk t lines (n - i) i off (hT hi) hk
                  have hadd : i + (n - i) = n := by omega
                  rw [hadd] at this
                  exact this
                · intro s hs b' hb'
                  injection hs with h2
                  subst h2
                  simp only [List.mem_append, List.mem_singleton] at hb'
                  cases hb' with
                  | inl h => exact hcur sec rfl b' h
                  | inr h => exact h ▸ hgood
              · rw [if_neg hin] at hres2
                exact absurd hres2 (by simp)
            · rw [if_neg hn] at hres2
              exact absurd hres2 (by simp)
          | none =>
            rw [hpb] at hres
            have hres2 : parseLoop lines f (i + 1) (off + (lines.getD i []).length + 1)
                (some sec) acc = .ok secs := hres
            exact ih lines (i + 1) (off + (lines.getD i []).length + 1) (some sec) acc secs
              (fun hi1 => stepT t lines i off (hT hi) hi1) hcur hacc hres2
        | none =>
          have hres2 : parseLoop lines f (i + 1) (off + (lines.getD i []).length + 1)
              none acc = .ok secs := hres
          exact ih lines (i + 1) (off + (lines.getD i []).length + 1) none acc secs
            (fun hi1 => stepT t lines i off (hT hi) hi1) (by intro s hs; cases hs) hacc hres2
    · rw [if_neg hi] at hres
      have hsecs : flushSec cur acc = secs := by
        injection hres
      rw [← hsecs]
      cases cur with
      | some c =>
        intro s hs
        simp only [flushSec, List.mem_append, List.mem_singleton] at hs
        cases hs with
        | inl h => exact hacc s h
        | inr h => exact h ▸ hcur c rfl
      | none => exact hacc

/-- C9: every Block produced by a successful parse of a document satisfies
start ≤ end, end bounded by the text length, and content equal to the exact
slice of the parsed text between start and end, delimiters included. -/
theorem c9_block_bounds (t : Str) (secs : List Section)
    (h : parse_sections t = .ok secs) :
    ∀ s ∈ secs, ∀ b ∈ s.blocks,
      b.start ≤ b.stop ∧ b.stop ≤ t.length ∧
      b.content = (t.drop b.start).take (b.stop - b.start) := by
  intro s hs b hb
  have hgood : ∀ sx ∈ secs, ∀ bx ∈ sx.blocks, goodBlock t bx := by
    refine parseLoop_good t ((rustLines t).length + 1) (rustLines t) 0 0 none [] secs
      ?_ ?_ ?_ ?_
    · intro _
      simpa using text_eq_joinNl t
    · intro sx hsx
      cases hsx
    · intro sx hsx
      simp at hsx
    · exact h
  exact hgood s hs b hb

/-- Witness for C9 at a concrete document with a heading and a two-line
paragraph block. -/
theorem c9_block_bounds_witness :
    4 ≤ 15 ∧ 15 ≤ ("# A\nHello\nWorld\n".toList).length ∧
      ("Hello\nWorld".toList : Str)
        = (("# A\nHello\nWorld\n".toList).drop 4).take (15 - 4) :=
  c9_block_bounds ("# A\nHello\nWorld\n".toList)
    [⟨"# A".toList, 1, 0, 3, [⟨4, 15, "Hello\nWorld".toList, .paragraph⟩]⟩]
    (by decide)
    ⟨"# A".toList, 1, 0, 3, [⟨4, 15, "Hello\nWorld".toList, .paragraph⟩]⟩ (by decide)
    ⟨4, 15, "Hello\nWorld".toList, .paragraph⟩ (by decide)
